import Mathlib

/- Verification development for the streak-analysis script
   `analyze_streaks.py` of the mlb-scripts repository.

   Modelling conventions: Python floats are modelled as rationals;
   dictionaries with a zero default (collections.defaultdict(int)) are
   modelled as total functions returning 0 outside their support;
   fallible parsing is modelled with Option. -/

namespace AnalyzeStreaks

/-- The ignored-season set from the script configuration (IGNORED_SEASONS). -/
def IGNORED_SEASONS : List ℤ := [2020]

/-- The ascending threshold list from the script (THRESHOLDS = range(5, 11)). -/
def THRESHOLDS : List ℤ := [5, 6, 7, 8, 9, 10]

/-- The streak types that take part in win/loss bookkeeping (WIN_LOSS_TYPES). -/
def WIN_LOSS_TYPES : List String := ["WIN", "LOSS"]

/-- The default comparison tolerance of the ranking engine (RANK_TOLERANCE = 1e-9). -/
def RANK_TOLERANCE : ℚ := 1 / 1000000000

/-- Truncation toward zero: the behaviour of Python int() applied to a float. -/
def pyTrunc (q : ℚ) : ℤ := if q < 0 then Int.ceil q else Int.floor q

/-- Round half to even: the behaviour of Python round() with a single argument. -/
def pyRound (q : ℚ) : ℤ :=
  let fl := Int.floor q
  let frac := q - fl
  if frac < 1 / 2 then fl
  else if 1 / 2 < frac then fl + 1
  else if 2 ∣ fl then fl else fl + 1

/-- Python min over a list, with junk value 0 on the empty list; the script
only applies it to nonempty lists. -/
def listMin : List ℚ → ℚ
  | [] => 0
  | a :: rest => rest.foldl min a

/-- Python max over a list, with junk value 0 on the empty list. -/
def listMax : List ℚ → ℚ
  | [] => 0
  | a :: rest => rest.foldl max a

/-- Embedding of compute_rank.  Returns (rank, tieCount, totalCount). -/
def compute_rank (value : ℚ) (values : List ℚ) (higher_is_better : Bool)
    (tolerance : ℚ) : ℕ × ℕ × ℕ :=
  if values.isEmpty then (0, 0, 0)
  else
    let better :=
      if higher_is_better then
        values.countP (fun item => decide (value + tolerance < item))
      else
        values.countP (fun item => decide (item < value - tolerance))
    let tied := values.countP (fun item => decide (|item - value| ≤ tolerance))
    (better + 1, tied, values.length)

/-- Embedding of percentile_rank: 100 times the share of members at or
below the value, none on an empty distribution. -/
def percentile_rank (value : ℚ) (data : List ℚ) : Option ℚ :=
  if data.isEmpty then none
  else
    some (((data.countP (fun item => decide (item ≤ value)) : ℚ) /
      (data.length : ℚ)) * 100)

/-- Embedding of the helper that tests whether a float is within 1e-9 of an
integer (the is-effectively-int check of the script). -/
def is_effectively_int (value : ℚ) : Bool :=
  decide (|value - (pyRound value : ℚ)| < 1 / 1000000000)

/-- The as-int flag of build_distribution_chart: all values effectively integers. -/
def as_int (values : List ℚ) : Bool := values.all is_effectively_int

/-- The unique-value count of build_distribution_chart (len(set(values))). -/
def unique_count (values : List ℚ) : ℕ := values.dedup.length

/-- The bin count of build_distribution_chart:
min(max_bins, unique_count) when unique_count is nonzero, forced up to 1
when the result would be nonpositive. -/
def chart_bin_count (values : List ℚ) (max_bins : ℕ) : ℕ :=
  let bc := if unique_count values ≠ 0 then min max_bins (unique_count values) else 1
  if bc ≤ 0 then 1 else bc

/-- The bin width of build_distribution_chart, with the fallback that turns
a zero step into 1.0. -/
def chart_step (values : List ℚ) (max_bins : ℕ) : ℚ :=
  let step := (listMax values - listMin values) / (chart_bin_count values max_bins : ℚ)
  if step = 0 then 1 else step

/-- The bin index of a value in binned mode: int((value - min)/step), then
clamped first from above to bin_count - 1 and then from below to 0,
exactly in the order the script performs the two clamps. -/
def bin_index (minv step : ℚ) (bin_count : ℤ) (value : ℚ) : ℤ :=
  let index := pyTrunc ((value - minv) / step)
  let index2 := if index ≥ bin_count then bin_count - 1 else index
  if index2 < 0 then 0 else index2

/-- The bin population list of binned mode: start from bin_count zeros and
bump the clamped bin of every value. -/
def chart_bin_counts (values : List ℚ) (max_bins : ℕ) : List ℕ :=
  let bc := chart_bin_count values max_bins
  let minv := listMin values
  let step := chart_step values max_bins
  values.foldl
    (fun acc v =>
      let idx := (bin_index minv step (bc : ℤ) v).toNat
      acc.set idx (acc.getD idx 0 + 1))
    (List.replicate bc 0)

/-- Python max over a list of naturals (max of the empty list never occurs
in the script; 0 here). -/
def natMax (l : List ℕ) : ℕ := l.foldl max 0

/-- Bar length rule of the chart: int(round(count / maxCount * width)),
floored to one column for a nonzero count. -/
def bar_length (count maxCount width : ℕ) : ℕ :=
  if maxCount = 0 then 0
  else
    let b := (pyRound (((count : ℚ) / (maxCount : ℚ)) * (width : ℚ))).toNat
    if count > 0 ∧ b = 0 then 1 else b

/-- Label of one chart line: either a single value or a lo-hi range. -/
inductive ChartLabel where
  | single (v : ℚ)
  | interval (lo hi : ℚ)
deriving DecidableEq, Repr

/-- One data line of the rendered chart, keeping the numeric content of the
formatted text: the label, the bar width in characters, the printed count
and whether the highlight marker is attached to this line. -/
structure ChartLine where
  label : ChartLabel
  barLength : ℕ
  count : ℕ
  highlighted : Bool
deriving DecidableEq, Repr

/-- The mode decision of build_distribution_chart, evaluated in the order
of the script: empty input, all values identical, then discrete when as_int
and (prefer_discrete or unique_count at most max_bins), else binned. -/
inductive ChartMode where
  | noData
  | allEqual
  | discrete
  | binned
deriving DecidableEq, Repr

/-- The branch taken by build_distribution_chart. -/
def chartMode (values : List ℚ) (max_bins : ℕ) (prefer_discrete : Bool) : ChartMode :=
  if values.isEmpty then .noData
  else if listMax values = listMin values then .allEqual
  else if as_int values && (prefer_discrete || decide (unique_count values ≤ max_bins)) then
    .discrete
  else .binned

/-- The highlight bin of binned mode: the unclamped index when it already
lies inside [0, bin_count), else the last bin when the highlight reaches the
global maximum, else no highlight. -/
def highlight_bin (minv maxv step : ℚ) (bin_count : ℕ) (hv : ℚ) : Option ℕ :=
  let index := pyTrunc ((hv - minv) / step)
  if 0 ≤ index ∧ index < (bin_count : ℤ) then some index.toNat
  else if hv ≥ maxv then some (bin_count - 1) else none

/-- Embedding of build_distribution_chart.  The constant header line of the
script carries no data and is omitted; each returned ChartLine keeps the
numeric content of one printed data line. -/
def build_distribution_chart (values : List ℚ) (highlight : Option ℚ)
    (width : ℕ) (max_bins : ℕ) (prefer_discrete : Bool) : List ChartLine :=
  match chartMode values max_bins prefer_discrete with
  | .noData => []
  | .allEqual =>
      [{ label := .single (listMin values), barLength := width,
         count := values.length, highlighted := highlight.isSome }]
  | .discrete =>
      let sorted_values := List.insertionSort (fun a b => a ≤ b) values.dedup
      let max_count := natMax (values.dedup.map (fun w => values.count w))
      sorted_values.map (fun v =>
        { label := .single v,
          barLength := bar_length (values.count v) max_count width,
          count := values.count v,
          highlighted :=
            match highlight with
            | none => false
            | some hv => decide (|hv - v| < 1 / 1000000000) })
  | .binned =>
      let bc := chart_bin_count values max_bins
      let minv := listMin values
      let maxv := listMax values
      let step := chart_step values max_bins
      let counts := chart_bin_counts values max_bins
      let max_count := natMax counts
      let hIdx : Option ℕ :=
        match highlight with
        | none => none
        | some hv => highlight_bin minv maxv step bc hv
      (List.range bc).map (fun (position : ℕ) =>
        { label := .interval ((minv + (position : ℚ) * step))
            (if position < bc - 1 then minv + ((position : ℚ) + 1) * step else maxv),
          barLength := bar_length (counts.getD position 0) max_count width,
          count := counts.getD position 0,
          highlighted := hIdx = some position })

/-- One CSV row as the aggregation loop of main sees it.  Length holds the
result of the int parse of the Length column (none models the skip on
ValueError or KeyError); Team and StreakType are the raw optional fields. -/
structure Row where
  Length : Option ℤ
  Team : Option String
  StreakType : Option String

/-- Uppercasing of a string, the behaviour of Python str.upper on ASCII
input, written over the character list so that it evaluates in the kernel. -/
def upperString (s : String) : String := String.mk (s.data.map Char.toUpper)

/-- Whitespace stripping from both ends, the behaviour of Python str.strip,
written over the character list so that it evaluates in the kernel. -/
def trimString (s : String) : String :=
  String.mk
    (((s.data.dropWhile Char.isWhitespace).reverse.dropWhile Char.isWhitespace).reverse)

/-- The normalized streak type of a row: get StreakType with default empty
string, strip whitespace, uppercase. -/
def normalized_streak_type (row : Row) : String :=
  upperString (trimString (row.StreakType.getD ""))

/-- The four aggregation maps of main that the claims concern, modelled as
total functions with the defaultdict zero default. -/
structure AggState where
  year_counts : ℤ → ℤ → ℤ
  team_streak_totals : ℤ → String × ℤ → ℤ
  team_win_loss_counts : ℤ → String × ℤ → String → ℤ

/-- The empty aggregation state at the start of main. -/
def initAggState : AggState := ⟨fun _ _ => 0, fun _ _ => 0, fun _ _ _ => 0⟩

/-- The first per-record threshold loop of main: at every qualifying
threshold bump the year count and, outside ignored seasons, add the length
to the team streak total. -/
def lengthStep (season : ℤ) (team_name : String) (length : ℤ)
    (st : AggState) (threshold : ℤ) : AggState :=
  if length ≥ threshold then
    { st with
      year_counts := fun t s =>
        if t = threshold ∧ s = season then st.year_counts t s + 1
        else st.year_counts t s,
      team_streak_totals :=
        if season ∈ IGNORED_SEASONS then st.team_streak_totals
        else fun t k =>
          if t = threshold ∧ k = (team_name, season) then
            st.team_streak_totals t k + length
          else st.team_streak_totals t k }
  else st

/-- The second per-record threshold loop of main: bump the win/loss count of
the record's normalized streak type at every qualifying threshold. -/
def winLossStep (season : ℤ) (team_name : String) (length : ℤ)
    (streak_type : String) (st : AggState) (threshold : ℤ) : AggState :=
  if length ≥ threshold then
    { st with
      team_win_loss_counts := fun t k ty =>
        if t = threshold ∧ k = (team_name, season) ∧ ty = streak_type then
          st.team_win_loss_counts t k ty + 1
        else st.team_win_loss_counts t k ty }
  else st

/-- Embedding of the per-row body of the aggregation loop in main. -/
def processRow (season : ℤ) (row : Row) (st : AggState) : AggState :=
  match row.Length with
  | none => st
  | some length =>
    let team_name := row.Team.getD "Unknown Team"
    let st1 := THRESHOLDS.foldl (lengthStep season team_name length) st
    let streak_type := normalized_streak_type row
    if streak_type ∉ WIN_LOSS_TYPES then st1
    else if season ∈ IGNORED_SEASONS then st1
    else THRESHOLDS.foldl (winLossStep season team_name length streak_type) st1

/-- The aggregation pass over the parsed rows of one season file. -/
def processRows (season : ℤ) (rows : List Row) (st : AggState) : AggState :=
  rows.foldl (fun acc row => processRow season row acc) st

/-- Streak kind of a chronological-buffer entry. -/
inductive StreakKind where
  | WIN
  | LOSS
deriving DecidableEq, Repr

/-- One entry of a team-season chronological buffer: parsed start date as a
day ordinal, streak kind and streak length. -/
structure SwingEntry where
  startDate : ℤ
  kind : StreakKind
  length : ℤ
deriving DecidableEq, Repr

instance : DecidableRel (fun a b : SwingEntry => a.startDate ≤ b.startDate) :=
  fun a b => Int.decLe a.startDate b.startDate

instance : IsTotal SwingEntry (fun a b => a.startDate ≤ b.startDate) :=
  ⟨fun a b => le_total a.startDate b.startDate⟩

instance : IsTrans SwingEntry (fun a b => a.startDate ≤ b.startDate) :=
  ⟨fun _ _ _ h1 h2 => le_trans h1 h2⟩

/-- Modelled from the spec: the swing-detection pass of the second script
variant is not among the source files, so the chronological sort is taken
from the spec.  The buffer is sorted ascending by start date with a stable
sort, ties keeping input order; insertion sort with a nonstrict comparison
is such a sort. -/
def sortChrono (entries : List SwingEntry) : List SwingEntry :=
  List.insertionSort (fun a b => a.startDate ≤ b.startDate) entries

/-- Modelled from the spec: bump one per-threshold counter at every
configured threshold that is at most the pair minimum m. -/
def bumpThresholds (ts : List ℤ) (m : ℤ) (acc : ℤ → ℕ) : ℤ → ℕ :=
  ts.foldl
    (fun f t => if t ≤ m then (fun u => if u = t then f u + 1 else f u) else f)
    acc

/-- Modelled from the spec: scan the sorted buffer and, for each adjacent
pair of entries of opposite kind, bump every threshold at most the minimum
of the two lengths. -/
def swingScan (ts : List ℤ) : List SwingEntry → (ℤ → ℕ) → ℤ → ℕ
  | [], acc => acc
  | [_], acc => acc
  | a :: b :: rest, acc =>
      swingScan ts (b :: rest)
        (if a.kind ≠ b.kind then bumpThresholds ts (min a.length b.length) acc else acc)

/-- Modelled from the spec: SwingCount for one team-season buffer, indexed by
threshold. -/
def swingCount (ts : List ℤ) (entries : List SwingEntry) : ℤ → ℕ :=
  swingScan ts (sortChrono entries) (fun _ => 0)

/-- Adjacent pairs of a list of buffer entries, in order. -/
def adjacentPairs : List SwingEntry → List (SwingEntry × SwingEntry)
  | [] => []
  | [_] => []
  | a :: b :: rest => (a, b) :: adjacentPairs (b :: rest)

/-- The three-entry buffer of the swing-detection example in the spec. -/
def exampleBuffer : List SwingEntry :=
  [⟨1, .WIN, 6⟩, ⟨2, .LOSS, 7⟩, ⟨3, .WIN, 5⟩]

lemma foldl_min_le_init (rest : List ℚ) : ∀ a : ℚ, rest.foldl min a ≤ a := by
  induction rest with
  | nil => intro a; simp
  | cons b t ih =>
      intro a
      simpa using le_trans (ih (min a b)) (min_le_left a b)

lemma foldl_min_le_mem (rest : List ℚ) :
    ∀ (a x : ℚ), x ∈ rest → rest.foldl min a ≤ x := by
  induction rest with
  | nil => intro a x hx; cases hx
  | cons b t ih =>
      intro a x hx
      rcases List.mem_cons.mp hx with h | h
      · subst h
        simp only [List.foldl_cons]
        exact le_trans (foldl_min_le_init t _) (min_le_right _ _)
      · simpa using ih (min a b) x h

lemma foldl_min_mem (rest : List ℚ) :
    ∀ a : ℚ, rest.foldl min a = a ∨ rest.foldl min a ∈ rest := by
  induction rest with
  | nil => intro a; left; rfl
  | cons b t ih =>
      intro a
      rcases ih (min a b) with h | h
      · rcases min_choice a b with hc | hc
        · left; simpa [h] using hc
        · right; rw [List.foldl_cons, h, hc]; exact List.mem_cons_self b t
      · right; exact List.mem_cons_of_mem b (by simpa using h)

lemma foldl_max_init_le (rest : List ℚ) : ∀ a : ℚ, a ≤ rest.foldl max a := by
  induction rest with
  | nil => intro a; simp
  | cons b t ih =>
      intro a
      simpa using le_trans (le_max_left a b) (ih (max a b))

lemma foldl_max_mem_le (rest : List ℚ) :
    ∀ (a x : ℚ), x ∈ rest → x ≤ rest.foldl max a := by
  induction rest with
  | nil => intro a x hx; cases hx
  | cons b t ih =>
      intro a x hx
      rcases List.mem_cons.mp hx with h | h
      · subst h
        simpa using le_trans (le_max_right a x) (foldl_max_init_le t (max a x))
      · simpa using ih (max a b) x h

lemma foldl_max_mem (rest : List ℚ) :
    ∀ a : ℚ, rest.foldl max a = a ∨ rest.foldl max a ∈ rest := by
  induction rest with
  | nil => intro a; left; rfl
  | cons b t ih =>
      intro a
      rcases ih (max a b) with h | h
      · rcases max_choice a b with hc | hc
        · left; simpa [h] using hc
        · right; rw [List.foldl_cons, h, hc]; exact List.mem_cons_self b t
      · right; exact List.mem_cons_of_mem b (by simpa using h)

lemma listMin_le (l : List ℚ) (x : ℚ) (hx : x ∈ l) : listMin l ≤ x := by
  cases l with
  | nil => cases hx
  | cons a rest =>
      rcases List.mem_cons.mp hx with h | h
      · subst h; exact foldl_min_le_init rest x
      · exact foldl_min_le_mem rest a x h

lemma le_listMax (l : List ℚ) (x : ℚ) (hx : x ∈ l) : x ≤ listMax l := by
  cases l with
  | nil => cases hx
  | cons a rest =>
      rcases List.mem_cons.mp hx with h | h
      · subst h; exact foldl_max_init_le rest x
      · exact foldl_max_mem_le rest a x h

lemma listMin_mem (l : List ℚ) (h : l ≠ []) : listMin l ∈ l := by
  cases l with
  | nil => exact absurd rfl h
  | cons a rest =>
      rcases foldl_min_mem rest a with hc | hc
      · rw [listMin, hc]; exact List.mem_cons_self a rest
      · exact List.mem_cons_of_mem a (by simpa [listMin] using hc)

lemma listMax_mem (l : List ℚ) (h : l ≠ []) : listMax l ∈ l := by
  cases l with
  | nil => exact absurd rfl h
  | cons a rest =>
      rcases foldl_max_mem rest a with hc | hc
      · rw [listMax, hc]; exact List.mem_cons_self a rest
      · exact List.mem_cons_of_mem a (by simpa [listMax] using hc)

lemma listMax_ne_listMin (l : List ℚ) (a b : ℚ) (ha : a ∈ l) (hb : b ∈ l)
    (hab : a ≠ b) : listMax l ≠ listMin l := by
  intro h
  apply hab
  have h1 : a ≤ b := le_trans (le_trans (le_listMax l a ha) (le_of_eq h)) (listMin_le l b hb)
  have h2 : b ≤ a := le_trans (le_trans (le_listMax l b hb) (le_of_eq h)) (listMin_le l a ha)
  exact le_antisymm h1 h2

lemma isEmpty_false_of_ne_nil (l : List ℚ) (h : l ≠ []) : l.isEmpty = false := by
  cases l with
  | nil => exact absurd rfl h
  | cons a rest => rfl

/-- C4: compute_rank returns the sentinel (0, 0, 0) on the empty
distribution; on a nonempty distribution the returned rank lies in
[1, |D| + 1], the total count is |D|, and the tie count is at least 1
whenever the value is within tolerance of some member. -/
theorem compute_rank_bounds (v : ℚ) (hib : Bool) (tol : ℚ) (D : List ℚ)
    (hD : D ≠ []) :
    compute_rank v [] hib tol = (0, 0, 0) ∧
    1 ≤ (compute_rank v D hib tol).1 ∧
    (compute_rank v D hib tol).1 ≤ D.length + 1 ∧
    (compute_rank v D hib tol).2.2 = D.length ∧
    ((∃ d ∈ D, |d - v| ≤ tol) → 1 ≤ (compute_rank v D hib tol).2.1) := by
  have hne : D.isEmpty = false := isEmpty_false_of_ne_nil D hD
  have hb : (if hib then D.countP (fun item => decide (v + tol < item))
      else D.countP (fun item => decide (item < v - tol))) ≤ D.length := by
    cases hib <;> simpa using List.countP_le_length _
  refine ⟨by simp [compute_rank], ?_, ?_, ?_, ?_⟩
  · simp [compute_rank, hne]
  · simp only [compute_rank, hne, Bool.false_eq_true, if_false]
    omega
  · simp [compute_rank, hne]
  · intro hex
    rcases hex with ⟨d, hd, habs⟩
    simp only [compute_rank, hne, Bool.false_eq_true, if_false]
    exact List.countP_pos_iff.mpr ⟨d, hd, by simpa using habs⟩

theorem compute_rank_bounds_witness :
    1 ≤ (compute_rank 2 [1, 2, 3] true RANK_TOLERANCE).1 :=
  (compute_rank_bounds 2 true RANK_TOLERANCE [1, 2, 3] (by decide)).2.1

/-- C5: with higher_is_better set, compute_rank is antitone in its value
argument: a smaller value never gets a smaller (better) rank number. -/
theorem compute_rank_value_antitone (D : List ℚ) (tol v1 v2 : ℚ)
    (h : v1 < v2) :
    (compute_rank v2 D true tol).1 ≤ (compute_rank v1 D true tol).1 := by
  by_cases hD : D.isEmpty
  · simp [compute_rank, hD]
  · have hmono : D.countP (fun item => decide (v2 + tol < item)) ≤
        D.countP (fun item => decide (v1 + tol < item)) := by
      refine List.countP_mono_left (fun a _ ha => ?_)
      simp only [decide_eq_true_eq] at ha ⊢
      linarith
    simp only [compute_rank, hD, Bool.false_eq_true, if_false, if_true]
    omega

theorem compute_rank_value_antitone_witness :
    (compute_rank 2 [1, 2, 3] true RANK_TOLERANCE).1 ≤
      (compute_rank 1 [1, 2, 3] true RANK_TOLERANCE).1 :=
  compute_rank_value_antitone [1, 2, 3] RANK_TOLERANCE 1 2 (by decide)

/-- C6: on a nonempty distribution, percentile_rank equals 100 times the
count of members at or below the value divided by the size, always lies in
[0, 100], and equals exactly 100 at the maximum member. -/
theorem percentile_rank_formula (D : List ℚ) (hD : D ≠ []) :
    (∀ v : ℚ, percentile_rank v D =
      some (100 * ((D.countP (fun item => decide (item ≤ v)) : ℚ)) /
        (D.length : ℚ))) ∧
    (∀ v r : ℚ, percentile_rank v D = some r → 0 ≤ r ∧ r ≤ 100) ∧
    (∀ m : ℚ, m ∈ D → (∀ d ∈ D, d ≤ m) → percentile_rank m D = some 100) := by
  have hne : D.isEmpty = false := isEmpty_false_of_ne_nil D hD
  have hlen : 0 < (D.length : ℚ) := by
    exact_mod_cast List.length_pos.mpr hD
  refine ⟨?_, ?_, ?_⟩
  · intro v
    simp only [percentile_rank, hne, Bool.false_eq_true, if_false,
      Option.some_inj]
    ring
  · intro v r hr
    simp only [percentile_rank, hne, Bool.false_eq_true, if_false,
      Option.some_inj] at hr
    have hc0 : (0 : ℚ) ≤ (D.countP (fun item => decide (item ≤ v)) : ℚ) := by
      positivity
    have hc : ((D.countP (fun item => decide (item ≤ v)) : ℚ)) ≤ (D.length : ℚ) := by
      exact_mod_cast List.countP_le_length _
    have hq : (D.countP (fun item => decide (item ≤ v)) : ℚ) / (D.length : ℚ) ≤ 1 :=
      (div_le_one hlen).mpr hc
    constructor
    · rw [← hr]; positivity
    · rw [← hr]
      calc (D.countP (fun item => decide (item ≤ v)) : ℚ) / (D.length : ℚ) * 100
          ≤ 1 * 100 := by nlinarith
        _ = 100 := by norm_num
  · intro m hm hall
    have hc : D.countP (fun item => decide (item ≤ m)) = D.length :=
      List.countP_eq_length.mpr (fun a ha => by simpa using hall a ha)
    simp only [percentile_rank, hne, Bool.false_eq_true, if_false, hc,
      Option.some_inj]
    rw [div_self (ne_of_gt hlen)]
    norm_num

theorem percentile_rank_formula_witness :
    percentile_rank 3 [1, 3, 2] = some 100 :=
  (percentile_rank_formula [1, 3, 2] (by decide)).2.2 3 (by decide) (by decide)

/-- C3 as stated fails on the code: 0 lies strictly below every member of
the one-element distribution [1], yet percentile_rank yields 0, not
100 divided by the distribution size. -/
theorem percentile_rank_below_all_counterexample :
    (∀ d ∈ ([1] : List ℚ), (0 : ℚ) < d) ∧
    percentile_rank 0 [1] = some 0 ∧
    percentile_rank 0 [1] ≠
      some ((100 : ℚ) / ((([1] : List ℚ).length : ℚ))) := by
  refine ⟨by decide, ?_, ?_⟩ <;> norm_num [percentile_rank]

/-- C3 amended: a value strictly below every member of a nonempty
distribution gets percentile 0, because the at-or-below count is empty;
the spec value 100/|D| is attained instead by a member that is the unique
minimum of the distribution. -/
theorem percentile_rank_below_all (D : List ℚ) (hD : D ≠ []) (v : ℚ) :
    ((∀ d ∈ D, v < d) → percentile_rank v D = some 0) ∧
    (v ∈ D → (∀ d ∈ D, d ≠ v → v < d) → D.count v = 1 →
      percentile_rank v D = some ((100 : ℚ) / (D.length : ℚ))) := by
  have hne : D.isEmpty = false := isEmpty_false_of_ne_nil D hD
  constructor
  · intro hall
    have hc : D.countP (fun item => decide (item ≤ v)) = 0 :=
      List.countP_eq_zero.mpr (fun a ha => by simpa using not_le.mpr (hall a ha))
    simp [percentile_rank, hne, hc]
  · intro hv hother hcount
    have hiff : ∀ a ∈ D, decide (a ≤ v) = true ↔ (a == v) = true := by
      intro a ha
      by_cases hav : a = v
      · simp [hav]
      · have h1 : ¬ a ≤ v := not_le.mpr (hother a ha hav)
        simp [hav, h1]
    have hc : D.countP (fun item => decide (item ≤ v)) = 1 := by
      calc D.countP (fun item => decide (item ≤ v))
          = D.countP (fun item => item == v) := List.countP_congr hiff
        _ = D.count v := rfl
        _ = 1 := hcount
    simp only [percentile_rank, hne, Bool.false_eq_true, if_false, hc,
      Option.some_inj]
    push_cast
    ring

theorem percentile_rank_below_all_witness :
    percentile_rank 0 [1, 2, 3] = some 0 :=
  (percentile_rank_below_all [1, 2, 3] (by decide) 0).1 (by decide)

lemma foldl_min_replicate (c : ℚ) : ∀ n : ℕ, (List.replicate n c).foldl min c = c := by
  intro n
  induction n with
  | zero => rfl
  | succ k ih => rw [List.replicate_succ, List.foldl_cons, min_self]; exact ih

lemma foldl_max_replicate (c : ℚ) : ∀ n : ℕ, (List.replicate n c).foldl max c = c := by
  intro n
  induction n with
  | zero => rfl
  | succ k ih => rw [List.replicate_succ, List.foldl_cons, max_self]; exact ih

lemma listMin_replicate (c : ℚ) (n : ℕ) : listMin (List.replicate (n + 1) c) = c := by
  rw [List.replicate_succ]
  simpa [listMin] using foldl_min_replicate c n

lemma listMax_replicate (c : ℚ) (n : ℕ) : listMax (List.replicate (n + 1) c) = c := by
  rw [List.replicate_succ]
  simpa [listMax] using foldl_max_replicate c n

lemma chartMode_replicate (c : ℚ) (n mb : ℕ) (pd : Bool) :
    chartMode (List.replicate (n + 1) c) mb pd = .allEqual := by
  simp [chartMode, listMin_replicate, listMax_replicate]

/-- C9: the core functions return defined sentinels rather than failing on
degenerate inputs: on the empty distribution percentile_rank is none, the
chart is the empty line list, and compute_rank is (0, 0, 0); single-value
and all-tied distributions also produce defined results in each function. -/
theorem degenerate_inputs_defined :
    (∀ v : ℚ, percentile_rank v [] = none) ∧
    (∀ (hl : Option ℚ) (w mb : ℕ) (pd : Bool),
      build_distribution_chart [] hl w mb pd = []) ∧
    (∀ (v : ℚ) (hib : Bool) (tol : ℚ), compute_rank v [] hib tol = (0, 0, 0)) ∧
    (∀ (c : ℚ) (n : ℕ) (hl : Option ℚ) (w mb : ℕ) (pd : Bool),
      build_distribution_chart (List.replicate (n + 1) c) hl w mb pd =
        [{ label := .single c, barLength := w, count := n + 1,
           highlighted := hl.isSome }]) ∧
    (∀ (c : ℚ) (n : ℕ) (v : ℚ),
      (percentile_rank v (List.replicate (n + 1) c)).isSome = true) ∧
    (∀ (c : ℚ) (n : ℕ) (v : ℚ) (hib : Bool) (tol : ℚ),
      (compute_rank v (List.replicate (n + 1) c) hib tol).2.2 = n + 1) := by
  refine ⟨?_, ?_, ?_, ?_, ?_, ?_⟩
  · intro v; simp [percentile_rank]
  · intro hl w mb pd; simp [build_distribution_chart, chartMode]
  · intro v hib tol; simp [compute_rank]
  · intro c n hl w mb pd
    simp [build_distribution_chart, chartMode_replicate, listMin_replicate]
  · intro c n v
    have h : (List.replicate (n + 1) c).isEmpty = false := by simp
    simp [percentile_rank, h]
  · intro c n v hib tol
    have h : (List.replicate (n + 1) c).isEmpty = false := by simp
    simp [compute_rank, h]

lemma is_effectively_int_iff (v : ℚ) :
    is_effectively_int v = true ↔ ∃ n : ℤ, |v - (n : ℚ)| < 1 / 1000000000 := by
  constructor
  · intro h
    exact ⟨pyRound v, by simpa [is_effectively_int] using h⟩
  · rintro ⟨n, hn⟩
    have heps : (1 : ℚ) / 1000000000 < 1 / 2 := by norm_num
    have habs : |v - (n : ℚ)| < 1 / 2 := lt_trans hn heps
    have hband := abs_sub_lt_iff.mp habs
    have hfl : (Int.floor v : ℚ) ≤ v := Int.floor_le v
    have hfl2 : v < (Int.floor v : ℚ) + 1 := Int.lt_floor_add_one v
    rcases lt_trichotomy (v - (Int.floor v : ℚ)) (1 / 2) with hc | hc | hc
    · have hround : pyRound v = Int.floor v := by
        simp only [pyRound]
        rw [if_pos hc]
      have hnfl : n = Int.floor v := by
        have h1 : (n : ℚ) < (Int.floor v : ℚ) + 1 := by linarith
        have h2 : (Int.floor v : ℚ) - 1 < (n : ℚ) := by linarith
        have h1i : n < Int.floor v + 1 := by exact_mod_cast h1
        have h2i : Int.floor v - 1 < n := by exact_mod_cast h2
        omega
      rw [hnfl] at hn
      simpa [is_effectively_int, hround] using hn
    · exfalso
      have hv : v = (Int.floor v : ℚ) + 1 / 2 := by linarith
      rcases le_or_lt (n : ℚ) (Int.floor v : ℚ) with hle | hlt
      · have hge : (1 : ℚ) / 2 ≤ v - (n : ℚ) := by rw [hv]; linarith
        have : (1 : ℚ) / 2 ≤ |v - (n : ℚ)| := le_trans hge (le_abs_self _)
        linarith
      · have hlt2 : Int.floor v < n := by exact_mod_cast hlt
        have hge1 : Int.floor v + 1 ≤ n := hlt2
        have hge1q : (Int.floor v : ℚ) + 1 ≤ (n : ℚ) := by exact_mod_cast hge1
        have hge : (1 : ℚ) / 2 ≤ (n : ℚ) - v := by rw [hv]; linarith
        have : (1 : ℚ) / 2 ≤ |v - (n : ℚ)| := by
          rw [abs_sub_comm]
          exact le_trans hge (le_abs_self _)
        linarith
    · have hround : pyRound v = Int.floor v + 1 := by
        simp only [pyRound]
        rw [if_neg (by linarith), if_pos hc]
      have hnfl : n = Int.floor v + 1 := by
        have h1 : (Int.floor v : ℚ) < (n : ℚ) := by linarith
        have h2 : (n : ℚ) < (Int.floor v : ℚ) + 2 := by linarith
        have h1i : Int.floor v < n := by exact_mod_cast h1
        have h2i : n < Int.floor v + 2 := by exact_mod_cast h2
        omega
      rw [hnfl] at hn
      rw [is_effectively_int, hround]
      simp only [decide_eq_true_eq]
      push_cast at hn ⊢
      exact hn

/-- C7: with at least two distinct values present, build_distribution_chart
selects discrete mode exactly when every value is within 1e-9 of an integer
and either prefer_discrete is set or the number of distinct values is at
most max_bins; in every other such case it selects binned mode. -/
theorem chart_mode_selection (values : List ℚ) (max_bins : ℕ)
    (prefer_discrete : Bool) (a b : ℚ) (ha : a ∈ values) (hb : b ∈ values)
    (hab : a ≠ b) :
    (chartMode values max_bins prefer_discrete = .discrete ↔
      ((∀ v ∈ values, ∃ n : ℤ, |v - (n : ℚ)| < 1 / 1000000000) ∧
        (prefer_discrete = true ∨ values.dedup.length ≤ max_bins))) ∧
    (chartMode values max_bins prefer_discrete = .binned ↔
      ¬ ((∀ v ∈ values, ∃ n : ℤ, |v - (n : ℚ)| < 1 / 1000000000) ∧
        (prefer_discrete = true ∨ values.dedup.length ≤ max_bins))) := by
  have hne : values.isEmpty = false :=
    isEmpty_false_of_ne_nil values (List.ne_nil_of_mem ha)
  have hmm : listMax values ≠ listMin values :=
    listMax_ne_listMin values a b ha hb hab
  have hcond :
      (as_int values && (prefer_discrete || decide (unique_count values ≤ max_bins))) = true ↔
      ((∀ v ∈ values, ∃ n : ℤ, |v - (n : ℚ)| < 1 / 1000000000) ∧
        (prefer_discrete = true ∨ values.dedup.length ≤ max_bins)) := by
    rw [Bool.and_eq_true, Bool.or_eq_true, decide_eq_true_iff]
    constructor
    · rintro ⟨h1, h2⟩
      refine ⟨?_, h2⟩
      intro v hv
      exact (is_effectively_int_iff v).mp (List.all_eq_true.mp h1 v hv)
    · rintro ⟨h1, h2⟩
      refine ⟨List.all_eq_true.mpr ?_, h2⟩
      intro v hv
      exact (is_effectively_int_iff v).mpr (h1 v hv)
  have hmode : chartMode values max_bins prefer_discrete =
      (if (as_int values && (prefer_discrete || decide (unique_count values ≤ max_bins))) = true
       then ChartMode.discrete else ChartMode.binned) := by
    simp [chartMode, hne, hmm]
  cases hcb : (as_int values && (prefer_discrete || decide (unique_count values ≤ max_bins))) with
  | false =>
      have hR : ¬ ((∀ v ∈ values, ∃ n : ℤ, |v - (n : ℚ)| < 1 / 1000000000) ∧
          (prefer_discrete = true ∨ values.dedup.length ≤ max_bins)) := by
        intro hr
        rw [← hcond] at hr
        rw [hcb] at hr
        exact Bool.false_ne_true hr
      rw [hmode, hcb]
      exact ⟨iff_of_false (by simp) hR, iff_of_true (by simp) hR⟩
  | true =>
      have hR : (∀ v ∈ values, ∃ n : ℤ, |v - (n : ℚ)| < 1 / 1000000000) ∧
          (prefer_discrete = true ∨ values.dedup.length ≤ max_bins) := hcond.mp hcb
      rw [hmode, hcb]
      exact ⟨iff_of_true (by simp) hR, iff_of_false (by simp) (fun hr => hr hR)⟩

theorem chart_mode_selection_witness :
    chartMode [0, 1] 1 false = .binned :=
  (chart_mode_selection [0, 1] 1 false 0 1 (by decide) (by decide)
    (by decide)).2.mpr (fun h => absurd h.2 (by decide))

lemma chart_bin_count_pos (values : List ℚ) (mb : ℕ) :
    1 ≤ chart_bin_count values mb := by
  simp only [chart_bin_count, Nat.min_def]
  split_ifs <;> omega

lemma bin_index_bounds (minv step : ℚ) (bc : ℤ) (hbc : 1 ≤ bc) (v : ℚ) :
    0 ≤ bin_index minv step bc v ∧ bin_index minv step bc v < bc := by
  simp only [bin_index]
  split_ifs <;> constructor <;> omega

lemma map_getD_range (l : List ℕ) :
    (List.range l.length).map (fun p => l.getD p 0) = l := by
  induction l with
  | nil => rfl
  | cons x t ih =>
      simp only [List.length_cons, List.range_succ_eq_map, List.map_cons,
        List.map_map]
      have hcomp : ((fun p => (x :: t).getD p 0) ∘ Nat.succ) =
          (fun p => t.getD p 0) := by
        funext p
        simp [List.getD]
      rw [hcomp, ih]
      simp [List.getD]

lemma sum_set_getD (l : List ℕ) :
    ∀ i : ℕ, i < l.length → (l.set i (l.getD i 0 + 1)).sum = l.sum + 1 := by
  induction l with
  | nil => intro i hi; cases hi
  | cons x t ih =>
      intro i hi
      cases i with
      | zero => simp [List.getD]; omega
      | succ j =>
          have hj : j < t.length := by simpa using hi
          simp only [List.set_cons_succ, List.sum_cons, List.getD_cons_succ]
          rw [ih j hj]
          omega

lemma foldl_set_incr_length (f : ℚ → ℕ) :
    ∀ (vs : List ℚ) (acc : List ℕ),
      (vs.foldl (fun a v => a.set (f v) (a.getD (f v) 0 + 1)) acc).length = acc.length := by
  intro vs
  induction vs with
  | nil => intro acc; rfl
  | cons v t ih =>
      intro acc
      rw [List.foldl_cons, ih]
      simp

lemma foldl_set_incr_sum (f : ℚ → ℕ) (bound : ℕ) (hf : ∀ v, f v < bound) :
    ∀ (vs : List ℚ) (acc : List ℕ), acc.length = bound →
      (vs.foldl (fun a v => a.set (f v) (a.getD (f v) 0 + 1)) acc).sum =
        acc.sum + vs.length := by
  intro vs
  induction vs with
  | nil => intro acc _; simp
  | cons v t ih =>
      intro acc hlen
      rw [List.foldl_cons]
      have hlen2 : (acc.set (f v) (acc.getD (f v) 0 + 1)).length = bound := by
        simpa using hlen
      rw [ih _ hlen2, sum_set_getD acc (f v) (by rw [hlen]; exact hf v)]
      simp [Nat.add_assoc, Nat.add_comm 1 t.length]

lemma bin_index_toNat_lt (values : List ℚ) (mb : ℕ) (v : ℚ) :
    (bin_index (listMin values) (chart_step values mb)
      ((chart_bin_count values mb : ℕ) : ℤ) v).toNat < chart_bin_count values mb := by
  have hbc : 1 ≤ chart_bin_count values mb := chart_bin_count_pos values mb
  have hbz : (1 : ℤ) ≤ (chart_bin_count values mb : ℤ) := by exact_mod_cast hbc
  have h := bin_index_bounds (listMin values) (chart_step values mb)
    ((chart_bin_count values mb : ℕ) : ℤ) hbz v
  omega

lemma chart_bin_counts_length (values : List ℚ) (mb : ℕ) :
    (chart_bin_counts values mb).length = chart_bin_count values mb := by
  unfold chart_bin_counts
  rw [foldl_set_incr_length]
  simp

lemma chart_bin_counts_sum (values : List ℚ) (mb : ℕ) :
    (chart_bin_counts values mb).sum = values.length := by
  unfold chart_bin_counts
  rw [foldl_set_incr_sum
    (fun v => (bin_index (listMin values) (chart_step values mb)
      ((chart_bin_count values mb : ℕ) : ℤ) v).toNat)
    (chart_bin_count values mb)
    (fun v => bin_index_toNat_lt values mb v)
    values (List.replicate (chart_bin_count values mb) 0) (by simp)]
  simp

lemma discrete_counts_sum (values : List ℚ) :
    ((List.insertionSort (fun a b => a ≤ b) values.dedup).map
      (fun v => values.count v)).sum = values.length := by
  have hperm : List.Perm (List.insertionSort (fun a b => a ≤ b) values.dedup)
      values.dedup := List.perm_insertionSort _ _
  have hperm2 := hperm.map (fun v => values.count v)
  rw [hperm2.sum_eq]
  exact List.sum_map_count_dedup_eq_length values

lemma chartMode_noData_iff (values : List ℚ) (mb : ℕ) (pd : Bool) :
    chartMode values mb pd = .noData ↔ values = [] := by
  constructor
  · intro h
    by_contra hvne
    have hne : values.isEmpty = false := isEmpty_false_of_ne_nil values hvne
    simp only [chartMode, hne, Bool.false_eq_true, if_false] at h
    split_ifs at h
  · intro h
    subst h
    rfl

/-- C8: in every mode the per-line counts of the chart sum exactly to the
number of input values. -/
theorem chart_counts_sum (values : List ℚ) (hv : values ≠ [])
    (hl : Option ℚ) (w mb : ℕ) (pd : Bool) :
    ((build_distribution_chart values hl w mb pd).map
      (fun line => line.count)).sum = values.length := by
  cases hmode : chartMode values mb pd with
  | noData => exact absurd ((chartMode_noData_iff values mb pd).mp hmode) hv
  | allEqual =>
      simp [build_distribution_chart, hmode]
  | discrete =>
      simp only [build_distribution_chart, hmode, List.map_map]
      exact discrete_counts_sum values
  | binned =>
      simp only [build_distribution_chart, hmode, List.map_map]
      have hlen : (chart_bin_counts values mb).length = chart_bin_count values mb :=
        chart_bin_counts_length values mb
      calc ((List.range (chart_bin_count values mb)).map
            ((fun line => line.count) ∘ (fun (position : ℕ) =>
              ({ label := .interval ((listMin values + (position : ℚ) * chart_step values mb))
                  (if position < chart_bin_count values mb - 1 then
                    listMin values + ((position : ℚ) + 1) * chart_step values mb
                  else listMax values),
                 barLength := bar_length ((chart_bin_counts values mb).getD position 0)
                   (natMax (chart_bin_counts values mb)) w,
                 count := (chart_bin_counts values mb).getD position 0,
                 highlighted :=
                   (match hl with
                    | none => none
                    | some hv2 => highlight_bin (listMin values) (listMax values)
                        (chart_step values mb) (chart_bin_count values mb) hv2) =
                     some position } : ChartLine)))).sum
          = ((List.range (chart_bin_count values mb)).map
              (fun p => (chart_bin_counts values mb).getD p 0)).sum := rfl
        _ = (chart_bin_counts values mb).sum := by rw [← hlen, map_getD_range]
        _ = values.length := chart_bin_counts_sum values mb

theorem chart_counts_sum_witness :
    ((build_distribution_chart [1, 1, 2, 3] none 30 10 false).map
      (fun line => line.count)).sum = ([1, 1, 2, 3] : List ℚ).length :=
  chart_counts_sum [1, 1, 2, 3] (by decide) none 30 10 false

/-- C10 as stated fails on the code: with max_bins = 1 the two-value
distribution [0, 1] reaches binned mode with bin_count equal to 1, not at
least 2; the division and clamping claims are unaffected. -/
theorem binned_bin_count_counterexample :
    chartMode [0, 1] 1 false = .binned ∧
    chart_bin_count [0, 1] 1 = 1 ∧
    ¬ 2 ≤ chart_bin_count [0, 1] 1 := by
  refine ⟨?_, by decide, by decide⟩
  simp [chartMode, listMax, listMin, unique_count]

lemma two_le_unique_count (values : List ℚ) (hvne : values ≠ [])
    (hmm : listMax values ≠ listMin values) : 2 ≤ unique_count values := by
  have h1 : listMin values ∈ values.dedup := List.mem_dedup.mpr (listMin_mem _ hvne)
  have h2 : listMax values ∈ values.dedup := List.mem_dedup.mpr (listMax_mem _ hvne)
  rcases hd : values.dedup with _ | ⟨x, t⟩
  · rw [hd] at h1; cases h1
  · rcases ht : t with _ | ⟨y, rest⟩
    · rw [hd, ht] at h1 h2
      have e1 : listMin values = x := List.mem_singleton.mp h1
      have e2 : listMax values = x := List.mem_singleton.mp h2
      exact absurd (e2.trans e1.symm) hmm
    · simp [unique_count, hd, ht]

lemma chartMode_binned_facts (values : List ℚ) (mb : ℕ) (pd : Bool)
    (hmode : chartMode values mb pd = .binned) :
    values ≠ [] ∧ listMax values ≠ listMin values := by
  have hvne : values ≠ [] := by
    intro h
    rw [h] at hmode
    simp [chartMode] at hmode
  refine ⟨hvne, ?_⟩
  intro heq
  have hne : values.isEmpty = false := isEmpty_false_of_ne_nil values hvne
  simp [chartMode, hne, heq] at hmode

/-- C10 amended: whenever build_distribution_chart reaches binned mode the
distribution holds two distinct values; bin_count is at least 1, and at
least 2 whenever max_bins is at least 2 (with max_bins = 1 a single bin is
possible); the raw step (max - min)/bin_count is strictly positive, so the
step-equals-zero fallback branch never fires in this mode; and every
computed bin index is clamped into [0, bin_count - 1], within the bounds of
the bin population list. -/
theorem binned_mode_safety (values : List ℚ) (mb : ℕ) (pd : Bool)
    (hmode : chartMode values mb pd = .binned) :
    (∃ a ∈ values, ∃ b ∈ values, a ≠ b) ∧
    1 ≤ chart_bin_count values mb ∧
    (2 ≤ mb → 2 ≤ chart_bin_count values mb) ∧
    0 < (listMax values - listMin values) / ((chart_bin_count values mb : ℕ) : ℚ) ∧
    chart_step values mb =
      (listMax values - listMin values) / ((chart_bin_count values mb : ℕ) : ℚ) ∧
    (∀ v : ℚ,
      0 ≤ bin_index (listMin values) (chart_step values mb)
        ((chart_bin_count values mb : ℕ) : ℤ) v ∧
      bin_index (listMin values) (chart_step values mb)
        ((chart_bin_count values mb : ℕ) : ℤ) v <
        ((chart_bin_count values mb : ℕ) : ℤ)) ∧
    (chart_bin_counts values mb).length = chart_bin_count values mb := by
  obtain ⟨hvne, hmm⟩ := chartMode_binned_facts values mb pd hmode
  have hminmem := listMin_mem values hvne
  have hmaxmem := listMax_mem values hvne
  have hminmax : listMin values ≤ listMax values := le_listMax values _ hminmem
  have hlt : listMin values < listMax values :=
    lt_of_le_of_ne hminmax (fun h => hmm h.symm)
  have hbc : 1 ≤ chart_bin_count values mb := chart_bin_count_pos values mb
  have hbz : (1 : ℤ) ≤ ((chart_bin_count values mb : ℕ) : ℤ) := by exact_mod_cast hbc
  have hbq : (0 : ℚ) < ((chart_bin_count values mb : ℕ) : ℚ) := by
    exact_mod_cast Nat.lt_of_lt_of_le Nat.zero_lt_one hbc
  have hstep : 0 < (listMax values - listMin values) /
      ((chart_bin_count values mb : ℕ) : ℚ) :=
    div_pos (by linarith) hbq
  refine ⟨⟨listMin values, hminmem, listMax values, hmaxmem, fun h => hmm h.symm⟩,
    hbc, ?_, hstep, ?_, ?_, chart_bin_counts_length values mb⟩
  · intro hmb
    have hu : 2 ≤ unique_count values := two_le_unique_count values hvne hmm
    simp only [chart_bin_count, Nat.min_def]
    split_ifs <;> omega
  · simp only [chart_step]
    rw [if_neg (ne_of_gt hstep)]
  · intro v
    exact bin_index_bounds (listMin values) (chart_step values mb) _ hbz v

theorem binned_mode_safety_witness :
    1 ≤ chart_bin_count [0, 1] 1 :=
  (binned_mode_safety [0, 1] 1 false
    (by simp [chartMode, listMax, listMin, unique_count])).2.1

lemma countP_eq_ite (ts : List ℤ) (hnd : ts.Nodup) (θ : ℤ) (hmem : θ ∈ ts)
    (q : ℤ → Bool) :
    ts.countP (fun tt => q tt && decide (θ = tt)) =
      if q θ = true then 1 else 0 := by
  induction ts with
  | nil => cases hmem
  | cons hd tl ih =>
      rw [List.countP_cons]
      rcases List.mem_cons.mp hmem with he | hm
      · have htl : θ ∉ tl := by
          rw [he]
          exact (List.nodup_cons.mp hnd).1
        have hz : tl.countP (fun tt => q tt && decide (θ = tt)) = 0 :=
          List.countP_eq_zero.mpr (fun a ha hpa => by
            have : θ = a := by
              have hb : q a = true ∧ decide (θ = a) = true := by simpa using hpa
              exact of_decide_eq_true hb.2
            exact htl (this ▸ ha))
        rw [hz, ← he]
        cases hq : q θ <;> simp [hq]
      · have hnd2 : tl.Nodup := (List.nodup_cons.mp hnd).2
        have hne2 : θ ≠ hd := by
          intro h
          exact (List.nodup_cons.mp hnd).1 (h ▸ hm)
        rw [ih hnd2 hm]
        simp [hne2]

lemma foldl_lengthStep_year (season : ℤ) (tn : String) (length : ℤ)
    (ts : List ℤ) :
    ∀ (st : AggState) (t s : ℤ),
      (ts.foldl (lengthStep season tn length) st).year_counts t s =
        st.year_counts t s +
          ((ts.countP (fun tt =>
            (decide (s = season) && decide (length ≥ tt)) && decide (t = tt)) : ℕ) : ℤ) := by
  induction ts with
  | nil => intro st t s; simp
  | cons hd tl ih =>
      intro st t s
      rw [List.foldl_cons, ih, List.countP_cons]
      have hstep : (lengthStep season tn length st hd).year_counts t s =
          st.year_counts t s +
            (if ((decide (s = season) && decide (length ≥ hd)) && decide (t = hd)) = true
             then 1 else 0) := by
        simp only [lengthStep]
        by_cases h1 : length ≥ hd
        · simp only [if_pos h1]
          by_cases h2 : t = hd ∧ s = season
          · simp [h2.1, h2.2, h1]
          · rcases not_and_or.mp h2 with h | h <;> simp [h2, h]
        · simp [h1]
      rw [hstep]
      push_cast
      ring

lemma foldl_lengthStep_winloss (season : ℤ) (tn : String) (length : ℤ)
    (ts : List ℤ) :
    ∀ st : AggState,
      (ts.foldl (lengthStep season tn length) st).team_win_loss_counts =
        st.team_win_loss_counts := by
  induction ts with
  | nil => intro st; rfl
  | cons hd tl ih =>
      intro st
      rw [List.foldl_cons, ih]
      simp only [lengthStep]
      split_ifs <;> rfl

lemma foldl_lengthStep_totals_ignored (season : ℤ) (tn : String) (length : ℤ)
    (hig : season ∈ IGNORED_SEASONS) (ts : List ℤ) :
    ∀ st : AggState,
      (ts.foldl (lengthStep season tn length) st).team_streak_totals =
        st.team_streak_totals := by
  induction ts with
  | nil => intro st; rfl
  | cons hd tl ih =>
      intro st
      rw [List.foldl_cons, ih]
      simp only [lengthStep]
      split_ifs <;> simp [hig]

lemma foldl_lengthStep_totals (season : ℤ) (tn : String) (length : ℤ)
    (hig : season ∉ IGNORED_SEASONS) (ts : List ℤ) :
    ∀ (st : AggState) (t : ℤ) (k : String × ℤ),
      (ts.foldl (lengthStep season tn length) st).team_streak_totals t k =
        st.team_streak_totals t k +
          length * ((ts.countP (fun tt =>
            (decide (k = (tn, season)) && decide (length ≥ tt)) && decide (t = tt)) : ℕ) : ℤ) := by
  induction ts with
  | nil => intro st t k; simp
  | cons hd tl ih =>
      intro st t k
      rw [List.foldl_cons, ih, List.countP_cons]
      have hstep : (lengthStep season tn length st hd).team_streak_totals t k =
          st.team_streak_totals t k +
            length *
              (if ((decide (k = (tn, season)) && decide (length ≥ hd)) && decide (t = hd)) = true
               then 1 else 0) := by
        simp only [lengthStep]
        by_cases h1 : length ≥ hd
        · simp only [if_pos h1]
          by_cases h2 : t = hd ∧ k = (tn, season)
          · simp [h2.1, h2.2, h1, hig]
          · rcases not_and_or.mp h2 with h | h <;> simp [hig, h2, h]
        · simp [h1]
      rw [hstep]
      push_cast
      ring

lemma foldl_winLossStep_year (season : ℤ) (tn : String) (length : ℤ)
    (sty : String) (ts : List ℤ) :
    ∀ st : AggState,
      (ts.foldl (winLossStep season tn length sty) st).year_counts =
        st.year_counts := by
  induction ts with
  | nil => intro st; rfl
  | cons hd tl ih =>
      intro st
      rw [List.foldl_cons, ih]
      simp only [winLossStep]
      split_ifs <;> rfl

lemma foldl_winLossStep_totals (season : ℤ) (tn : String) (length : ℤ)
    (sty : String) (ts : List ℤ) :
    ∀ st : AggState,
      (ts.foldl (winLossStep season tn length sty) st).team_streak_totals =
        st.team_streak_totals := by
  induction ts with
  | nil => intro st; rfl
  | cons hd tl ih =>
      intro st
      rw [List.foldl_cons, ih]
      simp only [winLossStep]
      split_ifs <;> rfl

lemma foldl_winLossStep_winloss (season : ℤ) (tn : String) (length : ℤ)
    (sty : String) (ts : List ℤ) :
    ∀ (st : AggState) (t : ℤ) (k : String × ℤ) (ty : String),
      (ts.foldl (winLossStep season tn length sty) st).team_win_loss_counts t k ty =
        st.team_win_loss_counts t k ty +
          ((ts.countP (fun tt =>
            ((decide (k = (tn, season)) && decide (ty = sty)) && decide (length ≥ tt)) &&
              decide (t = tt)) : ℕ) : ℤ) := by
  induction ts with
  | nil => intro st t k ty; simp
  | cons hd tl ih =>
      intro st t k ty
      rw [List.foldl_cons, ih, List.countP_cons]
      have hstep : (winLossStep season tn length sty st hd).team_win_loss_counts t k ty =
          st.team_win_loss_counts t k ty +
            (if (((decide (k = (tn, season)) && decide (ty = sty)) && decide (length ≥ hd)) &&
                decide (t = hd)) = true
             then 1 else 0) := by
        simp only [winLossStep]
        by_cases h1 : length ≥ hd
        · simp only [if_pos h1]
          by_cases h2 : t = hd ∧ k = (tn, season) ∧ ty = sty
          · simp [h2.1, h2.2.1, h2.2.2, h1]
          · rcases not_and_or.mp h2 with h | h
            · simp [h2, h]
            · rcases not_and_or.mp h with h3 | h3 <;> simp [h2, h3]
        · simp [h1]
      rw [hstep]
      push_cast
      ring

/-- C1: a parsed record whose season is ignored bumps the year count at
every threshold at most its length but leaves the team streak totals and
the team win/loss counts entirely untouched; a record in a non-ignored
season contributes to every applicable map: the year count, the team
streak total, and (when its normalized type is WIN or LOSS) the win/loss
count. -/
theorem ignored_season_exclusion (st : AggState) (season : ℤ) (row : Row)
    (length : ℤ) (hlen : row.Length = some length) :
    (season ∈ IGNORED_SEASONS →
      (∀ t ∈ THRESHOLDS, length ≥ t →
        (processRow season row st).year_counts t season =
          st.year_counts t season + 1) ∧
      (processRow season row st).team_streak_totals = st.team_streak_totals ∧
      (processRow season row st).team_win_loss_counts = st.team_win_loss_counts) ∧
    (season ∉ IGNORED_SEASONS →
      ∀ t ∈ THRESHOLDS, length ≥ t →
        (processRow season row st).year_counts t season =
          st.year_counts t season + 1 ∧
        (processRow season row st).team_streak_totals t
            (row.Team.getD "Unknown Team", season) =
          st.team_streak_totals t (row.Team.getD "Unknown Team", season) + length ∧
        (normalized_streak_type row ∈ WIN_LOSS_TYPES →
          (processRow season row st).team_win_loss_counts t
              (row.Team.getD "Unknown Team", season) (normalized_streak_type row) =
            st.team_win_loss_counts t (row.Team.getD "Unknown Team", season)
              (normalized_streak_type row) + 1)) := by
  have hnd : THRESHOLDS.Nodup := by decide
  have hpr : processRow season row st =
      (if normalized_streak_type row ∉ WIN_LOSS_TYPES then
        THRESHOLDS.foldl (lengthStep season (row.Team.getD "Unknown Team") length) st
       else if season ∈ IGNORED_SEASONS then
        THRESHOLDS.foldl (lengthStep season (row.Team.getD "Unknown Team") length) st
       else
        THRESHOLDS.foldl
          (winLossStep season (row.Team.getD "Unknown Team") length
            (normalized_streak_type row))
          (THRESHOLDS.foldl (lengthStep season (row.Team.getD "Unknown Team") length) st)) := by
    simp only [processRow, hlen]
  constructor
  · intro hig
    have hres : processRow season row st =
        THRESHOLDS.foldl (lengthStep season (row.Team.getD "Unknown Team") length) st := by
      rw [hpr]
      split_ifs <;> rfl
    refine ⟨?_, ?_, ?_⟩
    · intro t ht hlt
      rw [hres, foldl_lengthStep_year,
        countP_eq_ite THRESHOLDS hnd t ht
          (fun tt => decide (season = season) && decide (length ≥ tt)),
        if_pos (by simp [hlt])]
      norm_num
    · rw [hres, foldl_lengthStep_totals_ignored season (row.Team.getD "Unknown Team") length hig]
    · rw [hres, foldl_lengthStep_winloss]
  · intro hig t ht hlt
    have hy1 : (THRESHOLDS.foldl (lengthStep season (row.Team.getD "Unknown Team") length)
        st).year_counts t season = st.year_counts t season + 1 := by
      rw [foldl_lengthStep_year,
        countP_eq_ite THRESHOLDS hnd t ht
          (fun tt => decide (season = season) && decide (length ≥ tt)),
        if_pos (by simp [hlt])]
      norm_num
    have htot1 : (THRESHOLDS.foldl (lengthStep season (row.Team.getD "Unknown Team") length)
        st).team_streak_totals t (row.Team.getD "Unknown Team", season) =
        st.team_streak_totals t (row.Team.getD "Unknown Team", season) + length := by
      rw [foldl_lengthStep_totals season (row.Team.getD "Unknown Team") length hig,
        countP_eq_ite THRESHOLDS hnd t ht
          (fun tt => decide ((row.Team.getD "Unknown Team", season) =
            (row.Team.getD "Unknown Team", season)) && decide (length ≥ tt)),
        if_pos (by simp [hlt])]
      norm_num
    by_cases hw : normalized_streak_type row ∈ WIN_LOSS_TYPES
    · have hres : processRow season row st =
          THRESHOLDS.foldl
            (winLossStep season (row.Team.getD "Unknown Team") length
              (normalized_streak_type row))
            (THRESHOLDS.foldl (lengthStep season (row.Team.getD "Unknown Team") length) st) := by
        rw [hpr]
        split_ifs
        rfl
      refine ⟨?_, ?_, ?_⟩
      · rw [hres, foldl_winLossStep_year]
        exact hy1
      · rw [hres, foldl_winLossStep_totals]
        exact htot1
      · intro _
        rw [hres, foldl_winLossStep_winloss, foldl_lengthStep_winloss,
          countP_eq_ite THRESHOLDS hnd t ht
            (fun tt => (decide ((row.Team.getD "Unknown Team", season) =
                (row.Team.getD "Unknown Team", season)) &&
              decide (normalized_streak_type row = normalized_streak_type row)) &&
              decide (length ≥ tt)),
          if_pos (by simp [hlt])]
        norm_num
    · have hres : processRow season row st =
          THRESHOLDS.foldl (lengthStep season (row.Team.getD "Unknown Team") length) st := by
        rw [hpr, if_pos hw]
      refine ⟨?_, ?_, ?_⟩
      · rw [hres]
        exact hy1
      · rw [hres]
        exact htot1
      · intro hmem
        exact absurd hmem hw

theorem ignored_season_exclusion_witness :
    (processRow 2020 ⟨some 7, some "NYY", some " win "⟩ initAggState).team_win_loss_counts =
      initAggState.team_win_loss_counts ∧
    (processRow 2020 ⟨some 7, some "NYY", some " win "⟩ initAggState).year_counts 5 2020 =
      initAggState.year_counts 5 2020 + 1 := by
  have h := ignored_season_exclusion initAggState 2020 ⟨some 7, some "NYY", some " win "⟩ 7 rfl
  exact ⟨(h.1 (by decide)).2.2, (h.1 (by decide)).1 5 (by decide) (by decide)⟩

lemma foldl_bump_apply (m : ℤ) (ts : List ℤ) :
    ∀ (acc : ℤ → ℕ) (u : ℤ),
      (ts.foldl
        (fun f t => if t ≤ m then (fun w => if w = t then f w + 1 else f w) else f)
        acc) u =
        acc u + ts.countP (fun tt => decide (tt ≤ m) && decide (u = tt)) := by
  induction ts with
  | nil => intro acc u; simp
  | cons hd tl ih =>
      intro acc u
      rw [List.foldl_cons, ih, List.countP_cons]
      have hstep :
          (if hd ≤ m then (fun w => if w = hd then acc w + 1 else acc w) else acc) u =
            acc u + (if (decide (hd ≤ m) && decide (u = hd)) = true then 1 else 0) := by
        by_cases h1 : hd ≤ m
        · by_cases h2 : u = hd <;> simp [h1, h2]
        · simp [h1]
      rw [hstep]
      omega

lemma bumpThresholds_apply (ts : List ℤ) (m : ℤ) (acc : ℤ → ℕ) (u : ℤ) :
    bumpThresholds ts m acc u =
      acc u + ts.countP (fun tt => decide (tt ≤ m) && decide (u = tt)) := by
  simp only [bumpThresholds]
  exact foldl_bump_apply m ts acc u

lemma swingScan_apply (ts : List ℤ) (hnd : ts.Nodup) (u : ℤ) (hu : u ∈ ts) :
    ∀ (l : List SwingEntry) (acc : ℤ → ℕ),
      swingScan ts l acc u =
        acc u + (adjacentPairs l).countP
          (fun p => decide (p.1.kind ≠ p.2.kind) &&
            decide (u ≤ min p.1.length p.2.length)) := by
  intro l
  induction l with
  | nil => intro acc; simp [swingScan, adjacentPairs]
  | cons a tail ih =>
      cases tail with
      | nil => intro acc; simp [swingScan, adjacentPairs]
      | cons b rest =>
          intro acc
          simp only [swingScan]
          rw [ih, adjacentPairs, List.countP_cons]
          by_cases hk : a.kind ≠ b.kind
          · rw [if_pos hk, bumpThresholds_apply,
              countP_eq_ite ts hnd u hu
                (fun tt => decide (tt ≤ min a.length b.length))]
            by_cases hm : u ≤ min a.length b.length
            · simp only [if_pos (by simpa using hm : decide (u ≤ min a.length b.length) = true)]
              simp [hk, hm]
              omega
            · simp only [if_neg (by simpa using hm : ¬ decide (u ≤ min a.length b.length) = true)]
              simp [hk, hm]
          · rw [if_neg hk]
            simp [hk]

/-- C2: the per-team-season swing counter, built by scanning the
date-sorted chronological buffer, equals at every configured threshold the
number of adjacent pairs of opposite kind whose smaller length reaches the
threshold; the sorted buffer is an ascending permutation of the input; and
on the spec example buffer [(d1, WIN, 6), (d2, LOSS, 7), (d3, WIN, 5)] the
counts at thresholds 5, 6 and 7 are 2, 1 and 0. -/
theorem swing_detection_spec :
    (∀ entries : List SwingEntry,
      List.Sorted (fun a b : SwingEntry => a.startDate ≤ b.startDate)
        (sortChrono entries) ∧
      List.Perm (sortChrono entries) entries) ∧
    (∀ u : ℤ, u ∈ THRESHOLDS → ∀ entries : List SwingEntry,
      swingCount THRESHOLDS entries u =
        (adjacentPairs (sortChrono entries)).countP
          (fun p => decide (p.1.kind ≠ p.2.kind) &&
            decide (u ≤ min p.1.length p.2.length))) ∧
    swingCount THRESHOLDS exampleBuffer 5 = 2 ∧
    swingCount THRESHOLDS exampleBuffer 6 = 1 ∧
    swingCount THRESHOLDS exampleBuffer 7 = 0 := by
  refine ⟨?_, ?_, by decide, by decide, by decide⟩
  · intro entries
    exact ⟨List.sorted_insertionSort _ _, List.perm_insertionSort _ _⟩
  · intro u hu entries
    have h := swingScan_apply THRESHOLDS (by decide) u hu (sortChrono entries)
      (fun _ => 0)
    simpa [swingCount] using h

theorem swing_detection_witness :
    swingCount THRESHOLDS exampleBuffer 6 =
      (adjacentPairs (sortChrono exampleBuffer)).countP
        (fun p => decide (p.1.kind ≠ p.2.kind) &&
          decide (6 ≤ min p.1.length p.2.length)) :=
  swing_detection_spec.2.1 6 (by decide) exampleBuffer

end AnalyzeStreaks
